import Mathlib

/-!
Shallow embedding of IntelliMap's Python dependency indexer
(`packages/cli/indexers/python_indexer.py`) and of the symbol-extraction
sidecar (`packages/cli/moth/parse_python.py`).

Modelling conventions:
* A file path is a `String`, relative to the indexed root, with `/` as the
  separator (the POSIX form `str(p.relative_to(root))` produces).
* The filesystem under the root is a list of files (`FS.files`), each with
  its path and the result of `ast.parse` on its text: `none` models an
  unreadable or unparsable file (the `except Exception: pass` path),
  `some stmts` the parsed tree, flattened into the order `ast.walk` visits
  the import/def/class nodes.  Directory entries are not modelled: every
  existence probe made by the indexer ends in `.py`, so only `.py` files can
  answer it, and a directory whose own name ends in `.py` is not modelled.
* `root.exists()` is the flag `FS.rootExists`.
* `sorted(root.rglob('*.py'))` is modelled as filtering the files whose path
  ends in `.py` and sorting by the path string (CPython compares `PurePath`s
  by their string form).
* Python `dict` keyed by strings becomes a list of seen keys (`nodeMap`),
  Python `set` becomes a list of members (`edgeSet`); membership tests are
  list membership, exactly as the code only ever tests membership and inserts.
-/

namespace IntelliMap

/-- One node of the flattened `ast.walk` traversal that any of the two
visitors cares about.  `imp names` is an `import a, b.c` statement (one list
entry per alias, carrying `alias.name`, the full dotted name); `impFrom m` is
a `from X import ...` statement where `m` is `node.module` (`none` when the
module is absent, as in `from . import x`); `funcDef`, `asyncFuncDef` and
`classDef` carry the defined name; `other` is any other tree node. -/
inductive Stmt where
  | imp (names : List String)
  | impFrom (module : Option String)
  | funcDef (name : String)
  | asyncFuncDef (name : String)
  | classDef (name : String)
  | other
deriving DecidableEq, Repr

/-- A Python file under the root: its relative path and the result of
parsing its text (`none` = unreadable or syntax error). -/
structure PyFile where
  path : String
  parsed : Option (List Stmt)
deriving DecidableEq, Repr

/-- The filesystem as the indexer sees it: whether the root exists, and the
files below it. -/
structure FS where
  rootExists : Bool
  files : List PyFile
deriving Repr

def FS.paths (fs : FS) : List String := fs.files.map PyFile.path

/-- `(root / p).exists()` for a root-relative path `p`. -/
def FS.pathExists (fs : FS) (p : String) : Bool := fs.paths.contains p

/-- `extract_imports`: walk the parsed tree, collect `alias.name` for every
`ast.Import` alias and `node.module` for every `ast.ImportFrom` whose module
is present; a file that cannot be read or parsed yields `[]`. -/
def extract_imports (parsed : Option (List Stmt)) : List String :=
  match parsed with
  | none => []
  | some stmts =>
    stmts.flatMap fun s =>
      match s with
      | .imp names => names
      | .impFrom (some m) => [m]
      | _ => []

/-- `a.startswith(b)` (core `String.startsWith` is not kernel-reducible,
so the check runs on the character lists). -/
def strStartsWith (s pre : String) : Bool := pre.data.isPrefixOf s.data

/-- `a.endswith(b)`, on the character lists. -/
def strEndsWith (s post : String) : Bool := post.data.isSuffixOf s.data

/-- Python's `<=` on strings: lexicographic comparison by code point
(`Char`'s order is the code-point order). -/
def charsLe : List Char → List Char → Bool
  | [], _ => true
  | _ :: _, [] => false
  | a :: as, b :: bs =>
    if a < b then true
    else if b < a then false
    else charsLe as bs

/-- `a <= b` for strings, by code point. -/
def strLe (a b : String) : Bool := charsLe a.data b.data

/-- `import_name.replace('.', '/')`: the pattern is the single character
`.`, so the replacement maps every `.` to `/`. -/
def dotsToSlashes (import_name : String) : String :=
  ⟨import_name.data.map fun c => if c = '.' then '/' else c⟩

/-- `resolve_import_path(root, import_name)`: try the module file
`name-with-slashes + ".py"`, then the package file
`name-with-slashes + "/__init__.py"`; return the first that exists (already
root-relative in this model), else `none`. -/
def resolve_import_path (fs : FS) (import_name : String) : Option String :=
  let module_path := dotsToSlashes import_name ++ ".py"
  if fs.pathExists module_path then some module_path
  else
    let package_path := dotsToSlashes import_name ++ "/__init__.py"
    if fs.pathExists package_path then some package_path
    else none

/-- A value of the emitted JSON dictionaries: a string or a boolean. -/
inductive JVal where
  | s (v : String)
  | b (v : Bool)
deriving DecidableEq, Repr

/-- One emitted node record. -/
structure Node where
  id : String
  lang : String
  env : String
  pkg : String
  folder : String
  changed : Bool
deriving DecidableEq, Repr

/-- The node dictionary exactly as `build_python_graph` writes it: the keys,
in literal order, of `{"id":…, "lang":…, "env":…, "pkg":…, "folder":…,
"changed":…}`. -/
def Node.entries (n : Node) : List (String × JVal) :=
  [("id", .s n.id), ("lang", .s n.lang), ("env", .s n.env),
   ("pkg", .s n.pkg), ("folder", .s n.folder), ("changed", .b n.changed)]

/-- One emitted edge record `{"from":…, "to":…, "kind":…}` (`from` is a Lean
keyword, hence `fromId`). -/
structure Edge where
  fromId : String
  toId : String
  kind : String
deriving DecidableEq, Repr

/-- The edge dictionary as written, key order included. -/
def Edge.entries (e : Edge) : List (String × JVal) :=
  [("from", .s e.fromId), ("to", .s e.toId), ("kind", .s e.kind)]

structure Graph where
  nodes : List Node
  edges : List Edge
deriving DecidableEq, Repr

/-- `s.split(sep)` for a one-character separator: split at every occurrence,
keeping empty pieces. -/
def splitChar (sep : Char) : List Char → List Char → List (List Char)
  | [], acc => [acc.reverse]
  | c :: cs, acc =>
    if c = sep then acc.reverse :: splitChar sep cs []
    else splitChar sep cs (c :: acc)

/-- `rel_path.split('/')[0] if '/' in rel_path else rel_path`. -/
def folderOf (rel_path : String) : String :=
  if rel_path.data.contains '/' then
    ((splitChar '/' rel_path.data []).map String.mk).headD rel_path
  else rel_path

/-- The node record built for a discovered file. -/
def mkNode (node_id : String) : Node :=
  { id := node_id, lang := "py", env := "backend", pkg := "backend",
    folder := folderOf node_id, changed := false }

/-- The directory names skipped by discovery. -/
def excludedSegments : List String := ["__pycache__", ".venv", "venv", ".egg-info"]

/-- `py_file.parts` for a root-relative path. -/
def pathParts (p : String) : List String :=
  (splitChar '/' p.data []).map String.mk

/-- `any(part in py_file.parts for part in ['__pycache__', '.venv', 'venv',
'.egg-info'])`. -/
def isExcluded (p : String) : Bool :=
  excludedSegments.any fun part => (pathParts p).contains part

/-- `f"{node_id}→{target_path}"`, the dedup key of an edge. -/
def edgeKey (node_id target_path : String) : String :=
  node_id ++ "→" ++ target_path

/-- The accumulator of `build_python_graph`: the `nodes` and `edges` lists,
the keys of the `node_map` dict, and the members of the `edge_set` set. -/
structure GState where
  nodes : List Node
  edges : List Edge
  nodeMap : List String
  edgeSet : List String
deriving Repr

def GState.initial : GState := { nodes := [], edges := [], nodeMap := [], edgeSet := [] }

/-- The body of the `for imp in imports` loop: skip names starting with
an underscore, resolve, skip unresolved targets and self-targets, dedup on
the edge key, append the edge. -/
def processImport (fs : FS) (node_id : String) (st : GState) (imp : String) : GState :=
  if strStartsWith imp "_" then st
  else
    match resolve_import_path fs imp with
    | none => st
    | some target_path =>
      if target_path ≠ node_id then
        let key := edgeKey node_id target_path
        if st.edgeSet.contains key then st
        else { st with
                 edgeSet := key :: st.edgeSet,
                 edges := st.edges ++ [{ fromId := node_id, toId := target_path, kind := "import" }] }
      else st

/-- The body of the `for py_file in py_files` loop: skip excluded paths,
register the node if unseen, then fold the file's imports. -/
def processFile (fs : FS) (st : GState) (f : PyFile) : GState :=
  if isExcluded f.path then st
  else
    let node_id := f.path
    let st1 :=
      if st.nodeMap.contains node_id then st
      else { st with
               nodeMap := node_id :: st.nodeMap,
               nodes := st.nodes ++ [mkNode node_id] }
    (extract_imports f.parsed).foldl (processImport fs node_id) st1

/-- The order `sorted(root.rglob('*.py'))` sorts by: ascending path string
(CPython compares `PurePath`s by their string form, and the shared root
prefix makes that the order of the root-relative strings). -/
def pathLE (a b : PyFile) : Prop := strLe a.path b.path = true

instance : DecidableRel pathLE :=
  fun a b => inferInstanceAs (Decidable (strLe a.path b.path = true))

/-- `sorted(root.rglob('*.py'))`: the files whose path ends in `.py`, in
ascending order of the path string.  Python's `sorted` is modelled by a
stable sort; on the duplicate-free path lists `rglob` yields, any sort
agrees. -/
def discoverPyFiles (fs : FS) : List PyFile :=
  (fs.files.filter fun f => strEndsWith f.path ".py").insertionSort pathLE

/-- `build_python_graph(root_path)`. -/
def build_python_graph (fs : FS) : Graph :=
  if fs.rootExists = false then { nodes := [], edges := [] }
  else
    let final := (discoverPyFiles fs).foldl (processFile fs) GState.initial
    { nodes := final.nodes, edges := final.edges }

/-! The symbol-extraction sidecar `parse_python.py`. -/

/-- The result dictionary of `analyze_code`. -/
structure AnalyzeResult where
  imports : List String
  symbols : List String
  error : Option String
deriving DecidableEq, Repr

/-- What `Analyzer.visit` adds to `self.imports` over the walk. -/
def collectImports (stmts : List Stmt) : List String :=
  stmts.flatMap fun s =>
    match s with
    | .imp names => names
    | .impFrom (some m) => [m]
    | _ => []

/-- What `Analyzer.visit` adds to `self.symbols` over the walk. -/
def collectSymbols (stmts : List Stmt) : List String :=
  stmts.flatMap fun s =>
    match s with
    | .funcDef n => [n]
    | .asyncFuncDef n => [n]
    | .classDef n => [n]
    | _ => []

/-- `strLe` as a relation, for the sort. -/
def strLE (a b : String) : Prop := strLe a b = true

instance : DecidableRel strLE :=
  fun a b => inferInstanceAs (Decidable (strLe a b = true))

/-- `sorted(list(set(l)))`: a Python `set` holds each element once, and
`sorted` arranges the distinct elements ascending, so the result is the
sorted deduplication of the collected list. -/
def sortedSet (l : List String) : List String :=
  l.dedup.insertionSort strLE

/-- `analyze_code(code)`: the input is the outcome of `ast.parse` on the
code (`.error e` models a raised `SyntaxError`/exception with message `e`). -/
def analyze_code (parseResult : Except String (List Stmt)) : AnalyzeResult :=
  match parseResult with
  | .ok stmts =>
    { imports := sortedSet (collectImports stmts),
      symbols := sortedSet (collectSymbols stmts),
      error := none }
  | .error e => { imports := [], symbols := [], error := some e }

/-- The dedup key an emitted edge record was inserted under. -/
def Edge.key (e : Edge) : String := edgeKey e.fromId e.toId

/-- Discovery as the spec describes it: the relative paths of the files that
survive the per-file skip check, in processing order. -/
def discoveredPaths (fs : FS) : List String :=
  ((discoverPyFiles fs).filter fun f => !isExcluded f.path).map PyFile.path

/-- The edges one file contributes when its import loop runs against an
empty dedup set. -/
def fileEdges (fs : FS) (f : PyFile) : List Edge :=
  if isExcluded f.path then []
  else ((extract_imports f.parsed).foldl (processImport fs f.path) GState.initial).edges

/-- No two (from, to) pairs over the tree's paths collide once concatenated
into a dedup key; this fails only for path names that themselves contain the
separator arrow.  On a concrete tree it is decided by enumeration. -/
def keysSeparated (fs : FS) : Prop :=
  ∀ p ∈ fs.paths, ∀ q ∈ fs.paths, ∀ t ∈ fs.paths, ∀ t' ∈ fs.paths,
    edgeKey p t = edgeKey q t' → p = q ∧ t = t'

instance (fs : FS) : Decidable (keysSeparated fs) :=
  inferInstanceAs (Decidable
    (∀ p ∈ fs.paths, ∀ q ∈ fs.paths, ∀ t ∈ fs.paths, ∀ t' ∈ fs.paths,
      edgeKey p t = edgeKey q t' → p = q ∧ t = t'))

/-- The invariant the accumulator keeps: emitted edges carry pairwise
distinct dedup keys, and every emitted key is in the dedup set. -/
def stateKeysOk (st : GState) : Prop :=
  (st.edges.map Edge.key).Nodup ∧ ∀ e ∈ st.edges, e.key ∈ st.edgeSet

/-! Concrete trees used to instantiate the theorems. -/

/-- Scenario A of the spec: `pkg/mod.py` plus `main.py` with `import pkg.mod`. -/
def fsA : FS := ⟨true, [⟨"pkg/mod.py", some []⟩, ⟨"main.py", some [.imp ["pkg.mod"]]⟩]⟩

/-- The same tree with the files enumerated in the other order. -/
def fsA' : FS := ⟨true, [⟨"main.py", some [.imp ["pkg.mod"]]⟩, ⟨"pkg/mod.py", some []⟩]⟩

/-- A tree whose import resolves into an excluded directory: `main.py` says
`import venv.foo` and `venv/foo.py` exists. -/
def fsV : FS := ⟨true, [⟨"main.py", some [.imp ["venv.foo"]]⟩, ⟨"venv/foo.py", some []⟩]⟩

/-- A missing root. -/
def fsNoRoot : FS := ⟨false, [⟨"main.py", some []⟩]⟩

/-- Scenario C shape: a broken file next to valid ones. -/
def brokenStmts : List Stmt := [.imp ["pkg.mod"]]

def fsCfiles (parsed : Option (List Stmt)) : List PyFile :=
  [⟨"broken.py", parsed⟩, ⟨"pkg/mod.py", some []⟩, ⟨"main.py", some [.imp ["pkg.mod"]]⟩]

/-! Proof section: order facts about the lexicographic comparison, invariants
of the assembly fold, and the claim theorems. -/

lemma charsLe_total : ∀ a b : List Char, charsLe a b = true ∨ charsLe b a = true
  | [], _ => Or.inl rfl
  | _ :: _, [] => Or.inr rfl
  | a :: as, b :: bs => by
    rcases lt_trichotomy a b with h | h | h
    · left; simp [charsLe, h]
    · have h' : ¬ a < b := by simp [h]
      have h'' : ¬ b < a := by simp [h]
      rcases charsLe_total as bs with ih | ih
      · left; simpa [charsLe, h', h''] using ih
      · right; simpa [charsLe, h', h''] using ih
    · right; simp [charsLe, h]

lemma charsLe_antisymm : ∀ a b : List Char,
    charsLe a b = true → charsLe b a = true → a = b
  | [], [], _, _ => rfl
  | [], _ :: _, _, h => by simp [charsLe] at h
  | _ :: _, [], h, _ => by simp [charsLe] at h
  | a :: as, b :: bs, h₁, h₂ => by
    rcases lt_trichotomy a b with h | h | h
    · simp [charsLe, h, asymm h] at h₂
    · have h' : ¬ a < b := by simp [h]
      have h'' : ¬ b < a := by simp [h]
      simp only [charsLe, h', h'', if_neg, if_false] at h₁ h₂
      rw [h, charsLe_antisymm as bs h₁ h₂]
    · simp [charsLe, h, asymm h] at h₁

lemma charsLe_trans : ∀ a b c : List Char,
    charsLe a b = true → charsLe b c = true → charsLe a c = true
  | [], _, _, _, _ => rfl
  | _ :: _, [], _, h, _ => by simp [charsLe] at h
  | _ :: _, _ :: _, [], _, h => by simp [charsLe] at h
  | a :: as, b :: bs, c :: cs, h₁, h₂ => by
    rcases lt_trichotomy a b with hab | hab | hab
    · rcases lt_trichotomy b c with hbc | hbc | hbc
      · simp [charsLe, lt_trans hab hbc]
      · subst hbc; simp [charsLe, hab]
      · simp [charsLe, asymm hbc, hbc] at h₂
    · subst hab
      rcases lt_trichotomy a c with hac | hac | hac
      · simp [charsLe, hac]
      · subst hac
        have h' : ¬ a < a := lt_irrefl a
        simp only [charsLe, h', if_neg, if_false] at h₁ h₂ ⊢
        exact charsLe_trans as bs cs h₁ h₂
      · simp [charsLe, asymm hac, hac] at h₂
    · simp [charsLe, asymm hab, hab] at h₁

lemma strLe_total (a b : String) : strLe a b = true ∨ strLe b a = true :=
  charsLe_total a.data b.data

lemma strLe_antisymm {a b : String} (h₁ : strLe a b = true) (h₂ : strLe b a = true) :
    a = b := by
  cases a; cases b
  exact congrArg String.mk (charsLe_antisymm _ _ h₁ h₂)

lemma strLe_trans {a b c : String} (h₁ : strLe a b = true) (h₂ : strLe b c = true) :
    strLe a c = true :=
  charsLe_trans a.data b.data c.data h₁ h₂

instance : IsTotal String strLE := ⟨strLe_total⟩

instance : IsTrans String strLE := ⟨fun _ _ _ => strLe_trans⟩

instance : IsTotal PyFile pathLE := ⟨fun a b => strLe_total a.path b.path⟩

instance : IsTrans PyFile pathLE := ⟨fun _ _ _ => strLe_trans⟩

/-- C8: a missing root yields the empty graph. -/
theorem missing_root_empty_graph (fs : FS) (h : fs.rootExists = false) :
    build_python_graph fs = { nodes := [], edges := [] } := by
  simp [build_python_graph, h]

theorem missing_root_empty_graph_witness :
    fsNoRoot.rootExists = false ∧
      build_python_graph fsNoRoot = { nodes := [], edges := [] } :=
  ⟨rfl, missing_root_empty_graph fsNoRoot rfl⟩

/-- C5: resolution returns the direct module file `name-with-slashes + ".py"`
when it exists, otherwise the package file `name-with-slashes +
"/__init__.py"` when that exists, otherwise nothing; no other value ever
comes back. -/
theorem resolve_first_candidate (fs : FS) (import_name : String) :
    (∀ p, resolve_import_path fs import_name = some p ↔
      (fs.pathExists (dotsToSlashes import_name ++ ".py") = true ∧
        p = dotsToSlashes import_name ++ ".py") ∨
      (fs.pathExists (dotsToSlashes import_name ++ ".py") = false ∧
        fs.pathExists (dotsToSlashes import_name ++ "/__init__.py") = true ∧
        p = dotsToSlashes import_name ++ "/__init__.py")) ∧
    (resolve_import_path fs import_name = none ↔
      fs.pathExists (dotsToSlashes import_name ++ ".py") = false ∧
      fs.pathExists (dotsToSlashes import_name ++ "/__init__.py") = false) := by
  cases hm : fs.pathExists (dotsToSlashes import_name ++ ".py") <;>
    cases hi : fs.pathExists (dotsToSlashes import_name ++ "/__init__.py") <;>
    constructor <;>
    try intro p
  all_goals simp [resolve_import_path, hm, hi, eq_comm]

/-! Case analysis of one step of the import loop, and what each step does to
the accumulator. -/

lemma processImport_cases (fs : FS) (nid : String) (st : GState) (imp : String) :
    processImport fs nid st imp = st ∨
      ∃ t, strStartsWith imp "_" = false ∧ resolve_import_path fs imp = some t ∧
        t ≠ nid ∧ st.edgeSet.contains (edgeKey nid t) = false ∧
        processImport fs nid st imp =
          { st with
              edgeSet := edgeKey nid t :: st.edgeSet,
              edges := st.edges ++ [{ fromId := nid, toId := t, kind := "import" }] } := by
  cases h1 : strStartsWith imp "_"
  · cases hr : resolve_import_path fs imp with
    | none => left; simp [processImport, h1, hr]
    | some t =>
      by_cases h2 : t = nid
      · left; simp [processImport, h1, hr, h2]
      · cases h3 : st.edgeSet.contains (edgeKey nid t)
        · have h3' : edgeKey nid t ∉ st.edgeSet := by simpa using h3
          right
          exact ⟨t, rfl, rfl, h2, h3, by simp [processImport, h1, hr, h2, h3']⟩
        · have h3' : edgeKey nid t ∈ st.edgeSet := by simpa using h3
          left; simp [processImport, h1, hr, h2, h3']
  · left; simp [processImport, h1]

lemma processImport_nodes (fs : FS) (nid : String) (st : GState) (imp : String) :
    (processImport fs nid st imp).nodes = st.nodes := by
  rcases processImport_cases fs nid st imp with h | ⟨t, _, _, _, _, h⟩ <;> rw [h]

lemma processImport_nodeMap (fs : FS) (nid : String) (st : GState) (imp : String) :
    (processImport fs nid st imp).nodeMap = st.nodeMap := by
  rcases processImport_cases fs nid st imp with h | ⟨t, _, _, _, _, h⟩ <;> rw [h]

lemma foldImports_nodes (fs : FS) (nid : String) :
    ∀ (l : List String) (st : GState),
      (l.foldl (processImport fs nid) st).nodes = st.nodes
  | [], _ => rfl
  | imp :: l, st => by
    rw [List.foldl_cons, foldImports_nodes fs nid l, processImport_nodes]

lemma foldImports_nodeMap (fs : FS) (nid : String) :
    ∀ (l : List String) (st : GState),
      (l.foldl (processImport fs nid) st).nodeMap = st.nodeMap
  | [], _ => rfl
  | imp :: l, st => by
    rw [List.foldl_cons, foldImports_nodeMap fs nid l, processImport_nodeMap]

lemma mem_edges_processImport {fs : FS} {nid : String} {st : GState} {imp : String}
    {e : Edge} (h : e ∈ (processImport fs nid st imp).edges) :
    e ∈ st.edges ∨
      (strStartsWith imp "_" = false ∧ e.fromId = nid ∧
        resolve_import_path fs imp = some e.toId ∧ e.toId ≠ nid ∧ e.kind = "import") := by
  rcases processImport_cases fs nid st imp with hc | ⟨t, h1, hr, h2, h3, hc⟩
  · rw [hc] at h; exact Or.inl h
  · rw [hc] at h
    simp only [List.mem_append, List.mem_singleton] at h
    rcases h with h | rfl
    · exact Or.inl h
    · exact Or.inr ⟨h1, rfl, hr, h2, rfl⟩

lemma mem_edges_foldImports {fs : FS} {nid : String} :
    ∀ {l : List String} {st : GState} {e : Edge},
      e ∈ (l.foldl (processImport fs nid) st).edges →
      e ∈ st.edges ∨
        ∃ imp ∈ l, strStartsWith imp "_" = false ∧ e.fromId = nid ∧
          resolve_import_path fs imp = some e.toId ∧ e.toId ≠ nid ∧ e.kind = "import"
  | [], _, _, h => Or.inl h
  | imp :: l, st, e, h => by
    rw [List.foldl_cons] at h
    rcases mem_edges_foldImports h with h' | ⟨imp', hmem, hrest⟩
    · rcases mem_edges_processImport h' with h'' | hnew
      · exact Or.inl h''
      · exact Or.inr ⟨imp, List.mem_cons_self imp l, hnew⟩
    · exact Or.inr ⟨imp', List.mem_cons_of_mem imp hmem, hrest⟩

lemma mem_edges_processFile {fs : FS} {st : GState} {f : PyFile} {e : Edge}
    (h : e ∈ (processFile fs st f).edges) :
    e ∈ st.edges ∨
      (isExcluded f.path = false ∧
        ∃ imp ∈ extract_imports f.parsed, strStartsWith imp "_" = false ∧
          e.fromId = f.path ∧ resolve_import_path fs imp = some e.toId ∧
          e.toId ≠ f.path ∧ e.kind = "import") := by
  unfold processFile at h
  cases hx : isExcluded f.path
  · rw [hx] at h
    simp only [Bool.false_eq_true, if_false] at h
    rcases mem_edges_foldImports h with h' | ⟨imp, hmem, h1, h2, h3, h4, h5⟩
    · cases hc : st.nodeMap.contains f.path <;> rw [hc] at h' <;>
        simp only [Bool.false_eq_true, if_false, if_true] at h' <;>
        exact Or.inl h'
    · exact Or.inr ⟨rfl, imp, hmem, h1, h2, h3, h4, h5⟩
  · rw [hx] at h
    simp only [if_true] at h
    exact Or.inl h

lemma mem_edges_foldFiles {fs : FS} :
    ∀ {files : List PyFile} {st : GState} {e : Edge},
      e ∈ (files.foldl (processFile fs) st).edges →
      e ∈ st.edges ∨
        ∃ f ∈ files, isExcluded f.path = false ∧
          ∃ imp ∈ extract_imports f.parsed, strStartsWith imp "_" = false ∧
            e.fromId = f.path ∧ resolve_import_path fs imp = some e.toId ∧
            e.toId ≠ f.path ∧ e.kind = "import"
  | [], _, _, h => Or.inl h
  | f :: files, st, e, h => by
    rw [List.foldl_cons] at h
    rcases mem_edges_foldFiles h with h' | ⟨g, hmem, hrest⟩
    · rcases mem_edges_processFile h' with h'' | hnew
      · exact Or.inl h''
      · exact Or.inr ⟨f, List.mem_cons_self f files, hnew⟩
    · exact Or.inr ⟨g, List.mem_cons_of_mem f hmem, hrest⟩

/-- Every edge of the output is traceable to a discovered file and one of
its non-underscore import names, resolved to a distinct target. -/
lemma mem_edges_build {fs : FS} {e : Edge}
    (h : e ∈ (build_python_graph fs).edges) :
    ∃ f ∈ fs.files, strEndsWith f.path ".py" = true ∧ isExcluded f.path = false ∧
      ∃ imp ∈ extract_imports f.parsed, strStartsWith imp "_" = false ∧
        e.fromId = f.path ∧ resolve_import_path fs imp = some e.toId ∧
        e.toId ≠ f.path ∧ e.kind = "import" := by
  unfold build_python_graph at h
  cases hroot : fs.rootExists
  · rw [hroot] at h; simp at h
  · rw [hroot] at h
    simp only [Bool.true_eq_false, if_false] at h
    rcases mem_edges_foldFiles h with h' | ⟨f, hmem, hexc, rest⟩
    · simp [GState.initial] at h'
    · have hf : f ∈ fs.files ∧ strEndsWith f.path ".py" = true := by
        have := List.mem_insertionSort pathLE |>.mp hmem
        simpa [List.mem_filter] using this
      exact ⟨f, hf.1, hf.2, hexc, rest⟩

lemma pathExists_iff {fs : FS} {p : String} :
    fs.pathExists p = true ↔ p ∈ fs.paths := by
  simp [FS.pathExists]

lemma strEndsWith_append_py (x : String) :
    strEndsWith (x ++ ".py") ".py" = true := by
  simp only [strEndsWith, String.data_append, List.isSuffixOf_iff_suffix]
  exact List.suffix_append _ _

lemma strEndsWith_append_init (x : String) :
    strEndsWith (x ++ "/__init__.py") ".py" = true := by
  have h1 : (".py" : String).data <:+ ("/__init__.py" : String).data := by decide
  have h2 : ("/__init__.py" : String).data <:+ (x ++ "/__init__.py").data := by
    rw [String.data_append]; exact List.suffix_append _ _
  simp only [strEndsWith, List.isSuffixOf_iff_suffix]
  exact h1.trans h2

/-- A resolved target is an existing `.py` path of the tree. -/
lemma resolve_target_facts {fs : FS} {imp t : String}
    (h : resolve_import_path fs imp = some t) :
    t ∈ fs.paths ∧ strEndsWith t ".py" = true := by
  unfold resolve_import_path at h
  by_cases h1 : fs.pathExists (dotsToSlashes imp ++ ".py") = true
  · rw [if_pos h1] at h
    obtain rfl := Option.some.inj h
    exact ⟨pathExists_iff.mp h1, strEndsWith_append_py _⟩
  · rw [if_neg h1] at h
    by_cases h2 : fs.pathExists (dotsToSlashes imp ++ "/__init__.py") = true
    · rw [if_pos h2] at h
      obtain rfl := Option.some.inj h
      exact ⟨pathExists_iff.mp h2, strEndsWith_append_init _⟩
    · rw [if_neg h2] at h; cases h

/-! Node registration: what one file does to `nodes` and `node_map`. -/

lemma processFile_state_cases (fs : FS) (st : GState) (f : PyFile) :
    ((processFile fs st f).nodes = st.nodes ∧
      (processFile fs st f).nodeMap = st.nodeMap) ∨
    ((processFile fs st f).nodes = st.nodes ++ [mkNode f.path] ∧
      (processFile fs st f).nodeMap = f.path :: st.nodeMap ∧
      isExcluded f.path = false) := by
  unfold processFile
  cases hx : isExcluded f.path
  · simp only [Bool.false_eq_true, if_false]
    cases hc : st.nodeMap.contains f.path
    · have hc' : f.path ∉ st.nodeMap := by simpa using hc
      right
      rw [foldImports_nodes, foldImports_nodeMap]
      simp [hc']
    · have hc' : f.path ∈ st.nodeMap := by simpa using hc
      left
      rw [foldImports_nodes, foldImports_nodeMap]
      simp [hc']
  · left; simp

lemma mem_nodes_processFile_of_mem {fs : FS} {st : GState} {f : PyFile} {n : Node}
    (h : n ∈ st.nodes) : n ∈ (processFile fs st f).nodes := by
  rcases processFile_state_cases fs st f with ⟨hn, _⟩ | ⟨hn, _, _⟩ <;> rw [hn] <;>
    simp [h]

lemma mem_nodes_foldFiles_of_mem {fs : FS} :
    ∀ {files : List PyFile} {st : GState} {n : Node},
      n ∈ st.nodes → n ∈ (files.foldl (processFile fs) st).nodes
  | [], _, _, h => h
  | f :: files, st, n, h => by
    rw [List.foldl_cons]
    exact mem_nodes_foldFiles_of_mem (mem_nodes_processFile_of_mem h)

lemma nodeMap_covered_processFile {fs : FS} {st : GState} {f : PyFile}
    (h : ∀ p ∈ st.nodeMap, ∃ n ∈ st.nodes, n.id = p) :
    ∀ p ∈ (processFile fs st f).nodeMap, ∃ n ∈ (processFile fs st f).nodes, n.id = p := by
  rcases processFile_state_cases fs st f with ⟨hn, hm⟩ | ⟨hn, hm, _⟩ <;> rw [hn, hm]
  · exact h
  · intro p hp
    rcases List.mem_cons.mp hp with rfl | hp
    · exact ⟨mkNode f.path, by simp, rfl⟩
    · obtain ⟨n, hn', hid⟩ := h p hp
      exact ⟨n, by simp [hn'], hid⟩

lemma mem_nodeMap_processFile {fs : FS} {st : GState} {f : PyFile}
    (hx : isExcluded f.path = false) :
    f.path ∈ (processFile fs st f).nodeMap := by
  unfold processFile
  rw [hx]
  simp only [Bool.false_eq_true, if_false]
  rw [foldImports_nodeMap]
  cases hc : st.nodeMap.contains f.path
  · have hc' : f.path ∉ st.nodeMap := by simpa using hc
    simp [hc']
  · have hc' : f.path ∈ st.nodeMap := by simpa using hc
    simp [hc']

lemma node_exists_foldFiles {fs : FS} :
    ∀ {files : List PyFile} {st : GState} {f : PyFile},
      f ∈ files → isExcluded f.path = false →
      (∀ p ∈ st.nodeMap, ∃ n ∈ st.nodes, n.id = p) →
      ∃ n ∈ (files.foldl (processFile fs) st).nodes, n.id = f.path
  | [], _, _, hmem, _, _ => absurd hmem (List.not_mem_nil _)
  | g :: files, st, f, hmem, hx, hinv => by
    rw [List.foldl_cons]
    rcases List.mem_cons.mp hmem with rfl | hmem'
    · have hreg : f.path ∈ (processFile fs st f).nodeMap := mem_nodeMap_processFile hx
      obtain ⟨n, hn, hid⟩ := nodeMap_covered_processFile hinv _ hreg
      exact ⟨n, mem_nodes_foldFiles_of_mem hn, hid⟩
    · exact node_exists_foldFiles hmem' hx (nodeMap_covered_processFile hinv)

/-- Every non-excluded `.py` path of an existing tree gets a node. -/
lemma build_node_exists {fs : FS} {p : String} (hroot : fs.rootExists = true)
    (hp : p ∈ fs.paths) (hpy : strEndsWith p ".py" = true)
    (hexc : isExcluded p = false) :
    ∃ n ∈ (build_python_graph fs).nodes, n.id = p := by
  obtain ⟨f, hf, rfl⟩ : ∃ f ∈ fs.files, f.path = p := by
    simpa [FS.paths, List.mem_map, eq_comm] using hp
  unfold build_python_graph
  rw [hroot]
  simp only [Bool.true_eq_false, if_false]
  apply node_exists_foldFiles _ hexc
  · intro q hq; simp [GState.initial] at hq
  · rw [discoverPyFiles, List.mem_insertionSort, List.mem_filter]
    exact ⟨hf, hpy⟩

/-- C2, counterexample to the claim as stated: in `fsV`, `main.py` says
`import venv.foo` and `venv/foo.py` exists on disk, so an edge to
`venv/foo.py` is emitted — but `venv/foo.py` is skipped by discovery, so no
node carries that id. -/
theorem edge_target_node_counterexample :
    ({ fromId := "main.py", toId := "venv/foo.py", kind := "import" } : Edge) ∈
        (build_python_graph fsV).edges ∧
      (build_python_graph fsV).nodes.map Node.id = ["main.py"] ∧
      ∀ n ∈ (build_python_graph fsV).nodes, n.id ≠ "venv/foo.py" := by decide

/-- C2, amended: every edge's target is an existing `.py` path of the tree
at resolution time; a node with that id exists whenever the target is not in
an excluded directory (targets inside excluded directories get an edge but
no node). -/
theorem edge_target_exists (fs : FS) (e : Edge)
    (he : e ∈ (build_python_graph fs).edges) :
    e.toId ∈ fs.paths ∧ strEndsWith e.toId ".py" = true ∧
      (isExcluded e.toId = false →
        ∃ n ∈ (build_python_graph fs).nodes, n.id = e.toId) := by
  obtain ⟨f, _, _, _, imp, _, _, _, hres, _, _⟩ := mem_edges_build he
  obtain ⟨hmem, hpy⟩ := resolve_target_facts hres
  refine ⟨hmem, hpy, fun hexc => ?_⟩
  cases hroot : fs.rootExists
  · exfalso
    unfold build_python_graph at he
    rw [hroot] at he
    simp at he
  · exact build_node_exists hroot hmem hpy hexc

theorem edge_target_exists_witness :
    ({ fromId := "main.py", toId := "pkg/mod.py", kind := "import" } : Edge).toId ∈
        fsA.paths ∧
      ∃ n ∈ (build_python_graph fsA).nodes, n.id = "pkg/mod.py" :=
  have h := edge_target_exists fsA
    { fromId := "main.py", toId := "pkg/mod.py", kind := "import" } (by decide)
  ⟨h.1, h.2.2 (by decide)⟩

/-! The dedup invariant of the accumulator, for the no-duplicate-pairs
claim. -/

lemma keysOk_processImport {fs : FS} {nid : String} {st : GState} {imp : String}
    (h : stateKeysOk st) : stateKeysOk (processImport fs nid st imp) := by
  rcases processImport_cases fs nid st imp with hc | ⟨t, _, _, _, h3, hc⟩ <;> rw [hc]
  · exact h
  · obtain ⟨hnd, hsub⟩ := h
    have hfresh : edgeKey nid t ∉ st.edges.map Edge.key := by
      intro hk
      obtain ⟨e, he, hke⟩ := List.mem_map.mp hk
      have : edgeKey nid t ∈ st.edgeSet := hke ▸ hsub e he
      simp [List.contains_iff_exists_mem_beq] at h3
      exact absurd this (by simpa using h3)
    constructor
    · rw [List.map_append]
      simp only [List.map_cons, List.map_nil, Edge.key]
      exact List.Nodup.append hnd (List.nodup_singleton _)
        (by simpa [List.disjoint_singleton] using hfresh)
    · intro e he
      rcases List.mem_append.mp he with he | he
      · exact List.mem_cons_of_mem _ (hsub e he)
      · obtain rfl := List.mem_singleton.mp he
        exact List.mem_cons_self _ _

lemma keysOk_foldImports {fs : FS} {nid : String} :
    ∀ {l : List String} {st : GState},
      stateKeysOk st → stateKeysOk (l.foldl (processImport fs nid) st)
  | [], _, h => h
  | imp :: l, st, h => by
    rw [List.foldl_cons]
    exact keysOk_foldImports (keysOk_processImport h)

lemma keysOk_processFile {fs : FS} {st : GState} {f : PyFile}
    (h : stateKeysOk st) : stateKeysOk (processFile fs st f) := by
  unfold processFile
  cases hx : isExcluded f.path
  · simp only [Bool.false_eq_true, if_false]
    apply keysOk_foldImports
    cases hc : st.nodeMap.contains f.path
    · have hc' : f.path ∉ st.nodeMap := by simpa using hc
      simpa [stateKeysOk, hc'] using h
    · have hc' : f.path ∈ st.nodeMap := by simpa using hc
      simpa [stateKeysOk, hc'] using h
  · simpa using h

lemma keysOk_foldFiles {fs : FS} :
    ∀ {files : List PyFile} {st : GState},
      stateKeysOk st → stateKeysOk (files.foldl (processFile fs) st)
  | [], _, h => h
  | f :: files, st, h => by
    rw [List.foldl_cons]
    exact keysOk_foldFiles (keysOk_processFile h)

/-- C7: no two emitted edges agree on both endpoints — the dedup on the
`from→to` key collapses repeats. -/
theorem edges_nodup_pairs (fs : FS) :
    List.Pairwise (fun e₁ e₂ : Edge => e₁.fromId ≠ e₂.fromId ∨ e₁.toId ≠ e₂.toId)
      (build_python_graph fs).edges := by
  cases hroot : fs.rootExists
  · unfold build_python_graph
    rw [hroot]
    simp
  · have hok : stateKeysOk ((discoverPyFiles fs).foldl (processFile fs) GState.initial) := by
      apply keysOk_foldFiles
      exact ⟨List.Pairwise.nil, by intro e he; simp [GState.initial] at he⟩
    have hedges : (build_python_graph fs).edges =
        ((discoverPyFiles fs).foldl (processFile fs) GState.initial).edges := by
      unfold build_python_graph
      rw [hroot]
      simp
    rw [hedges]
    have hnd := hok.1
    rw [List.Nodup, List.pairwise_map] at hnd
    refine hnd.imp ?_
    intro e₁ e₂ hk
    by_cases hf : e₁.fromId = e₂.fromId
    · right
      intro ht
      exact hk (by simp [Edge.key, edgeKey, hf, ht])
    · exact Or.inl hf

/-! Shape of every emitted node. -/

lemma mem_nodes_processFile_shape {fs : FS} {st : GState} {f : PyFile} {n : Node}
    (h : n ∈ (processFile fs st f).nodes) : n ∈ st.nodes ∨ n = mkNode f.path := by
  rcases processFile_state_cases fs st f with ⟨hn, _⟩ | ⟨hn, _, _⟩ <;> rw [hn] at h
  · exact Or.inl h
  · simpa using h

lemma mem_nodes_foldFiles_shape {fs : FS} :
    ∀ {files : List PyFile} {st : GState} {n : Node},
      n ∈ (files.foldl (processFile fs) st).nodes →
      n ∈ st.nodes ∨ ∃ f ∈ files, n = mkNode f.path
  | [], _, _, h => Or.inl h
  | f :: files, st, n, h => by
    rw [List.foldl_cons] at h
    rcases mem_nodes_foldFiles_shape h with h' | ⟨g, hg, rfl⟩
    · rcases mem_nodes_processFile_shape h' with h'' | rfl
      · exact Or.inl h''
      · exact Or.inr ⟨f, List.mem_cons_self f files, rfl⟩
    · exact Or.inr ⟨g, List.mem_cons_of_mem f hg, rfl⟩

lemma mem_nodes_build_shape {fs : FS} {n : Node}
    (h : n ∈ (build_python_graph fs).nodes) : ∃ p, n = mkNode p := by
  unfold build_python_graph at h
  cases hroot : fs.rootExists
  · rw [hroot] at h; simp at h
  · rw [hroot] at h
    simp only [Bool.true_eq_false, if_false] at h
    rcases mem_nodes_foldFiles_shape h with h' | ⟨f, _, rfl⟩
    · simp [GState.initial] at h'
    · exact ⟨f.path, rfl⟩

/-- C1, counterexample to the claim as stated: the emitted node dictionaries
key the classification labels as `lang`, `env` and `pkg`, not as `language`,
`environment` and `package`. -/
theorem node_fields_counterexample :
    (build_python_graph fsA).nodes.map Node.id = ["main.py", "pkg/mod.py"] ∧
      (∀ n ∈ (build_python_graph fsA).nodes,
        n.entries.map Prod.fst = ["id", "lang", "env", "pkg", "folder", "changed"]) ∧
      ∀ n ∈ (build_python_graph fsA).nodes,
        n.entries.map Prod.fst ≠
          ["id", "language", "environment", "package", "folder", "changed"] := by
  decide

/-- C1, amended: every emitted node record has exactly the keys `id`,
`lang`, `env`, `pkg`, `folder`, `changed`, in that order, where the three
classification values are the fixed labels `py`, `backend`, `backend` and
`changed` is `false`. -/
theorem node_fields (fs : FS) (n : Node) (h : n ∈ (build_python_graph fs).nodes) :
    n.entries =
      [("id", .s n.id), ("lang", .s "py"), ("env", .s "backend"),
        ("pkg", .s "backend"), ("folder", .s (folderOf n.id)), ("changed", .b false)] := by
  obtain ⟨p, rfl⟩ := mem_nodes_build_shape h
  rfl

theorem node_fields_witness :
    (mkNode "main.py").entries =
      [("id", .s "main.py"), ("lang", .s "py"), ("env", .s "backend"),
        ("pkg", .s "backend"), ("folder", .s (folderOf "main.py")),
        ("changed", .b false)] :=
  node_fields fsA (mkNode "main.py") (by decide)

/-- C9: extraction collects the full name of each `import X` alias and the
module name of each `from X import Y` (members are untracked), and every
edge of the output arises from an extracted name that does not start with an
underscore — underscore names are dropped before resolution. -/
theorem extraction_and_underscore_filter :
    (∀ (stmts : List Stmt) (name : String),
      name ∈ extract_imports (some stmts) ↔
        (∃ ns, Stmt.imp ns ∈ stmts ∧ name ∈ ns) ∨ Stmt.impFrom (some name) ∈ stmts) ∧
    (∀ (fs : FS) (e : Edge), e ∈ (build_python_graph fs).edges →
      ∃ f ∈ fs.files, e.fromId = f.path ∧
        ∃ imp ∈ extract_imports f.parsed, strStartsWith imp "_" = false ∧
          resolve_import_path fs imp = some e.toId) := by
  constructor
  · intro stmts name
    simp only [extract_imports, List.mem_flatMap]
    constructor
    · rintro ⟨s, hs, hname⟩
      cases s with
      | imp ns => exact Or.inl ⟨ns, hs, hname⟩
      | impFrom m =>
        cases m with
        | some m' =>
          simp only [List.mem_singleton] at hname
          subst hname
          exact Or.inr hs
        | none => simp at hname
      | funcDef _ => simp at hname
      | asyncFuncDef _ => simp at hname
      | classDef _ => simp at hname
      | other => simp at hname
    · rintro (⟨ns, hs, hname⟩ | hs)
      · exact ⟨.imp ns, hs, hname⟩
      · exact ⟨.impFrom (some name), hs, by simp⟩
  · intro fs e he
    obtain ⟨f, hf, _, _, imp, himp, h1, h2, h3, _, _⟩ := mem_edges_build he
    exact ⟨f, hf, h2, imp, himp, h1, h3⟩

theorem extraction_and_underscore_filter_witness :
    ("pkg.mod" ∈ extract_imports (some [Stmt.impFrom (some "pkg.mod"), Stmt.other]) ↔
      (∃ ns, Stmt.imp ns ∈ [Stmt.impFrom (some "pkg.mod"), Stmt.other] ∧ "pkg.mod" ∈ ns) ∨
        Stmt.impFrom (some "pkg.mod") ∈ [Stmt.impFrom (some "pkg.mod"), Stmt.other]) ∧
    ∃ f ∈ fsA.files, ("main.py" : String) = f.path ∧
      ∃ imp ∈ extract_imports f.parsed, strStartsWith imp "_" = false ∧
        resolve_import_path fsA imp = some "pkg/mod.py" :=
  ⟨extraction_and_underscore_filter.1 _ _,
    extraction_and_underscore_filter.2 fsA
      { fromId := "main.py", toId := "pkg/mod.py", kind := "import" } (by decide)⟩

/-- C10: when the sidecar's analysis succeeds, both result lists are sorted
ascending and duplicate-free — `sorted(list(set(...)))` on both
accumulators. -/
theorem analyze_code_sorted_nodup (r : Except String (List Stmt))
    (h : (analyze_code r).error = none) :
    ((analyze_code r).imports.Sorted strLE ∧ (analyze_code r).imports.Nodup) ∧
      ((analyze_code r).symbols.Sorted strLE ∧ (analyze_code r).symbols.Nodup) := by
  cases r with
  | error e => exact absurd h (by simp [analyze_code])
  | ok stmts =>
    have hs : ∀ l : List String, (sortedSet l).Sorted strLE ∧ (sortedSet l).Nodup := by
      intro l
      constructor
      · exact List.sorted_insertionSort strLE l.dedup
      · exact (List.perm_insertionSort strLE l.dedup).symm.nodup l.nodup_dedup
    exact ⟨hs (collectImports stmts), hs (collectSymbols stmts)⟩

theorem analyze_code_sorted_nodup_witness :
    (analyze_code (.ok [Stmt.imp ["b", "a", "b"], Stmt.funcDef "z",
        Stmt.classDef "z"])).error = none ∧
      ((analyze_code (.ok [Stmt.imp ["b", "a", "b"], Stmt.funcDef "z",
          Stmt.classDef "z"])).imports.Sorted strLE ∧
        (analyze_code (.ok [Stmt.imp ["b", "a", "b"], Stmt.funcDef "z",
          Stmt.classDef "z"])).imports.Nodup) ∧
      ((analyze_code (.ok [Stmt.imp ["b", "a", "b"], Stmt.funcDef "z",
          Stmt.classDef "z"])).symbols.Sorted strLE ∧
        (analyze_code (.ok [Stmt.imp ["b", "a", "b"], Stmt.funcDef "z",
          Stmt.classDef "z"])).symbols.Nodup) :=
  ⟨rfl, analyze_code_sorted_nodup _ rfl⟩

/-! Exact characterization of the node list, for the discovery claims. -/

lemma processFile_excluded {fs : FS} {st : GState} {f : PyFile}
    (hx : isExcluded f.path = true) : processFile fs st f = st := by
  unfold processFile
  rw [hx]
  simp

lemma processFile_fresh {fs : FS} {st : GState} {f : PyFile}
    (hx : isExcluded f.path = false) (hc : st.nodeMap.contains f.path = false) :
    (processFile fs st f).nodes = st.nodes ++ [mkNode f.path] ∧
      (processFile fs st f).nodeMap = f.path :: st.nodeMap := by
  unfold processFile
  rw [hx]
  simp only [Bool.false_eq_true, if_false]
  rw [foldImports_nodes, foldImports_nodeMap, hc]
  simp

lemma foldFiles_nodes_eq {fs : FS} :
    ∀ {files : List PyFile} {st : GState},
      (files.map PyFile.path).Nodup →
      (∀ f ∈ files, f.path ∉ st.nodeMap) →
      (files.foldl (processFile fs) st).nodes =
        st.nodes ++ (files.filter fun f => !isExcluded f.path).map (fun f => mkNode f.path)
  | [], st, _, _ => by simp
  | f :: files, st, hnd, hdis => by
    obtain ⟨hfnotin, hnd'⟩ := List.nodup_cons.mp hnd
    rw [List.foldl_cons]
    cases hx : isExcluded f.path
    · have hc : st.nodeMap.contains f.path = false := by
        simpa using hdis f (List.mem_cons_self f files)
      obtain ⟨hn, hm⟩ := processFile_fresh hx hc
      have hdis' : ∀ g ∈ files, g.path ∉ (processFile fs st f).nodeMap := by
        intro g hg
        rw [hm]
        intro hmem
        rcases List.mem_cons.mp hmem with heq | hmem'
        · exact hfnotin (heq ▸ List.mem_map_of_mem PyFile.path hg)
        · exact hdis g (List.mem_cons_of_mem f hg) hmem'
      rw [foldFiles_nodes_eq hnd' hdis', hn]
      simp [hx, List.append_assoc]
    · have hdis' : ∀ g ∈ files, g.path ∉ st.nodeMap := fun g hg =>
        hdis g (List.mem_cons_of_mem f hg)
      rw [processFile_excluded hx, foldFiles_nodes_eq hnd' hdis']
      simp [hx]

lemma discoverPyFiles_map_path_nodup {fs : FS} (hnd : fs.paths.Nodup) :
    ((discoverPyFiles fs).map PyFile.path).Nodup := by
  have h1 : ((fs.files.filter fun f => strEndsWith f.path ".py").map PyFile.path).Nodup :=
    List.Nodup.sublist (List.Sublist.map PyFile.path (List.filter_sublist _)) hnd
  exact ((List.perm_insertionSort pathLE _).map PyFile.path).symm.nodup h1

/-- C3: discovery yields exactly the non-excluded `.py` paths of the tree,
deduplicated, sorted ascending by path string, and these are exactly the
node ids of the built graph, in order. -/
theorem discovery_exact (fs : FS) (hnd : fs.paths.Nodup) :
    (∀ p, p ∈ discoveredPaths fs ↔
        p ∈ fs.paths ∧ strEndsWith p ".py" = true ∧ isExcluded p = false) ∧
      (discoveredPaths fs).Nodup ∧
      (discoveredPaths fs).Sorted strLE ∧
      (fs.rootExists = true →
        (build_python_graph fs).nodes.map Node.id = discoveredPaths fs) := by
  refine ⟨?_, ?_, ?_, ?_⟩
  · intro p
    simp only [discoveredPaths, List.mem_map, List.mem_filter, discoverPyFiles,
      List.mem_insertionSort, Bool.not_eq_true']
    constructor
    · rintro ⟨f, ⟨⟨hf, hpy⟩, hx⟩, rfl⟩
      exact ⟨List.mem_map_of_mem PyFile.path hf, hpy, hx⟩
    · rintro ⟨hp, hpy, hx⟩
      obtain ⟨f, hf, rfl⟩ := List.mem_map.mp hp
      exact ⟨f, ⟨⟨hf, hpy⟩, hx⟩, rfl⟩
  · exact List.Nodup.sublist
      (List.Sublist.map PyFile.path (List.filter_sublist _))
      (discoverPyFiles_map_path_nodup hnd)
  · have hs : (discoverPyFiles fs).Sorted pathLE :=
      List.sorted_insertionSort pathLE _
    have hs' : ((discoverPyFiles fs).filter fun f => !isExcluded f.path).Sorted pathLE :=
      hs.sublist (List.filter_sublist _)
    exact (List.pairwise_map).mpr (hs'.imp fun h => h)
  · intro hroot
    unfold build_python_graph
    rw [hroot]
    simp only [Bool.true_eq_false, if_false]
    rw [foldFiles_nodes_eq (discoverPyFiles_map_path_nodup hnd)
      (by intro f _ h; simp [GState.initial] at h)]
    simp [discoveredPaths, List.map_map]
    rfl

theorem discovery_exact_witness :
    fsA.paths.Nodup ∧
      discoveredPaths fsA = ["main.py", "pkg/mod.py"] ∧
      (build_python_graph fsA).nodes.map Node.id = discoveredPaths fsA ∧
      ("venv/foo.py" ∈ fsV.paths ∧ "venv/foo.py" ∉ discoveredPaths fsV) :=
  ⟨by decide, by decide, (discovery_exact fsA (by decide)).2.2.2 rfl, by decide, by decide⟩

/-! Determinism: the output depends on the tree contents, not on the order
the filesystem happens to enumerate the files in. -/

lemma sorted_nodup_perm_eq {l₁ l₂ : List PyFile} (hp : List.Perm l₁ l₂)
    (hs₁ : l₁.Sorted pathLE) (hs₂ : l₂.Sorted pathLE)
    (hnd : (l₁.map PyFile.path).Nodup) : l₁ = l₂ := by
  haveI : IsAntisymm PyFile (fun a b => pathLE a b ∧ a.path ≠ b.path) :=
    ⟨fun a b h₁ h₂ => absurd (strLe_antisymm h₁.1 h₂.1) h₁.2⟩
  have hpw₁ : l₁.Pairwise (fun a b => a.path ≠ b.path) := (List.pairwise_map).mp hnd
  have hpw₂ : l₂.Pairwise (fun a b => a.path ≠ b.path) :=
    (List.pairwise_map).mp ((hp.map PyFile.path).nodup hnd)
  exact List.eq_of_perm_of_sorted hp (hs₁.and hpw₁) (hs₂.and hpw₂)

lemma discoverPyFiles_perm_eq {fs₁ fs₂ : FS} (hperm : List.Perm fs₁.files fs₂.files)
    (hnd : fs₁.paths.Nodup) : discoverPyFiles fs₁ = discoverPyFiles fs₂ := by
  apply sorted_nodup_perm_eq
  · exact ((List.perm_insertionSort pathLE _).trans
      (hperm.filter _)).trans (List.perm_insertionSort pathLE _).symm
  · exact List.sorted_insertionSort pathLE _
  · exact List.sorted_insertionSort pathLE _
  · exact discoverPyFiles_map_path_nodup hnd

lemma pathExists_congr {fs₁ fs₂ : FS} (h : List.Perm fs₁.paths fs₂.paths) (p : String) :
    fs₁.pathExists p = fs₂.pathExists p := by
  cases h₁ : fs₁.pathExists p <;> cases h₂ : fs₂.pathExists p <;> try rfl
  · exact absurd (pathExists_iff.mpr (h.mem_iff.mpr (pathExists_iff.mp h₂)))
      (by simp [h₁])
  · exact absurd (pathExists_iff.mpr (h.mem_iff.mp (pathExists_iff.mp h₁)))
      (by simp [h₂])

lemma resolve_congr {fs₁ fs₂ : FS} (h : List.Perm fs₁.paths fs₂.paths) :
    resolve_import_path fs₁ = resolve_import_path fs₂ := by
  funext imp
  unfold resolve_import_path
  simp only [pathExists_congr h]

lemma processImport_congr {fs₁ fs₂ : FS} (h : List.Perm fs₁.paths fs₂.paths) :
    processImport fs₁ = processImport fs₂ := by
  funext nid st imp
  unfold processImport
  rw [resolve_congr h]

lemma processFile_congr {fs₁ fs₂ : FS} (h : List.Perm fs₁.paths fs₂.paths) :
    processFile fs₁ = processFile fs₂ := by
  funext st f
  unfold processFile
  rw [processImport_congr h]

/-- C4: two runs over the same unchanged tree produce identical node and
edge collections, order included — the filesystem's enumeration order does
not matter because discovery sorts it away, and nothing else inspects the
order. -/
theorem build_deterministic (fs₁ fs₂ : FS) (hroot : fs₁.rootExists = fs₂.rootExists)
    (hperm : List.Perm fs₁.files fs₂.files) (hnd : fs₁.paths.Nodup) :
    build_python_graph fs₁ = build_python_graph fs₂ := by
  unfold build_python_graph
  rw [hroot, discoverPyFiles_perm_eq hperm hnd,
    processFile_congr (hperm.map PyFile.path)]

theorem build_deterministic_witness :
    List.Perm fsA.files fsA'.files ∧ fsA.paths.Nodup ∧
      build_python_graph fsA = build_python_graph fsA' :=
  have hp : List.Perm fsA.files fsA'.files := List.Perm.swap _ _ _
  ⟨hp, by decide, build_deterministic fsA fsA' rfl hp (by decide)⟩

/-! Per-file decomposition of the edge list.  Because every dedup key
carries the emitting file's path in front of the arrow, files with distinct
paths never interfere through the shared `edge_set`, so the global edge list
is the concatenation of each file's locally computed edges. -/

lemma flatMap_congr_mem {α β : Type} {f g : α → List β} :
    ∀ {l : List α}, (∀ a ∈ l, f a = g a) → l.flatMap f = l.flatMap g
  | [], _ => rfl
  | a :: l, h => by
    simp only [List.flatMap_cons]
    rw [h a (List.mem_cons_self a l),
      flatMap_congr_mem fun b hb => h b (List.mem_cons_of_mem a hb)]

lemma foldImports_parallel {fs : FS} {nid : String} {K0 : List String}
    (hK0 : ∀ t ∈ fs.paths, edgeKey nid t ∉ K0) :
    ∀ (l : List String) (stG stL : GState) (E0 : List Edge),
      stG.edges = E0 ++ stL.edges →
      (∀ k, k ∈ stG.edgeSet ↔ k ∈ stL.edgeSet ∨ k ∈ K0) →
      (l.foldl (processImport fs nid) stG).edges
          = E0 ++ (l.foldl (processImport fs nid) stL).edges ∧
        ∀ k, k ∈ (l.foldl (processImport fs nid) stG).edgeSet ↔
          k ∈ (l.foldl (processImport fs nid) stL).edgeSet ∨ k ∈ K0
  | [], stG, stL, E0, hE, hS => ⟨hE, hS⟩
  | imp :: l, stG, stL, E0, hE, hS => by
    rw [List.foldl_cons, List.foldl_cons]
    cases h1 : strStartsWith imp "_"
    case true =>
      have eG : processImport fs nid stG imp = stG := by simp [processImport, h1]
      have eL : processImport fs nid stL imp = stL := by simp [processImport, h1]
      rw [eG, eL]
      exact foldImports_parallel hK0 l stG stL E0 hE hS
    case false =>
      cases hr : resolve_import_path fs imp with
      | none =>
        have eG : processImport fs nid stG imp = stG := by simp [processImport, h1, hr]
        have eL : processImport fs nid stL imp = stL := by simp [processImport, h1, hr]
        rw [eG, eL]
        exact foldImports_parallel hK0 l stG stL E0 hE hS
      | some t =>
        by_cases h2 : t = nid
        · have eG : processImport fs nid stG imp = stG := by
            simp [processImport, h1, hr, h2]
          have eL : processImport fs nid stL imp = stL := by
            simp [processImport, h1, hr, h2]
          rw [eG, eL]
          exact foldImports_parallel hK0 l stG stL E0 hE hS
        · have ht : t ∈ fs.paths := (resolve_target_facts hr).1
          have hkey : edgeKey nid t ∉ K0 := hK0 t ht
          have hmemiff : edgeKey nid t ∈ stG.edgeSet ↔ edgeKey nid t ∈ stL.edgeSet := by
            rw [hS]
            simp [hkey]
          cases hcL : stL.edgeSet.contains (edgeKey nid t)
          · have hnL : edgeKey nid t ∉ stL.edgeSet := by simpa using hcL
            have hnG : edgeKey nid t ∉ stG.edgeSet := fun hm => hnL (hmemiff.mp hm)
            have eG : processImport fs nid stG imp =
                { stG with
                    edgeSet := edgeKey nid t :: stG.edgeSet,
                    edges := stG.edges ++
                      [{ fromId := nid, toId := t, kind := "import" }] } := by
              simp [processImport, h1, hr, h2, hnG]
            have eL : processImport fs nid stL imp =
                { stL with
                    edgeSet := edgeKey nid t :: stL.edgeSet,
                    edges := stL.edges ++
                      [{ fromId := nid, toId := t, kind := "import" }] } := by
              simp [processImport, h1, hr, h2, hnL]
            rw [eG, eL]
            apply foldImports_parallel hK0 l _ _ E0
            · simp [hE, List.append_assoc]
            · intro k
              simp only [List.mem_cons]
              rw [hS k]
              tauto
          · have hinL : edgeKey nid t ∈ stL.edgeSet := by simpa using hcL
            have hinG : edgeKey nid t ∈ stG.edgeSet := hmemiff.mpr hinL
            have hcG : stG.edgeSet.contains (edgeKey nid t) = true := by simpa using hinG
            have eG : processImport fs nid stG imp = stG := by
              simp [processImport, h1, hr, h2, hinG]
            have eL : processImport fs nid stL imp = stL := by
              simp [processImport, h1, hr, h2, hinL]
            rw [eG, eL]
            exact foldImports_parallel hK0 l stG stL E0 hE hS

lemma edgeSet_shape_foldImports {fs : FS} {nid : String} :
    ∀ {l : List String} {st : GState} {k : String},
      k ∈ (l.foldl (processImport fs nid) st).edgeSet →
      k ∈ st.edgeSet ∨ ∃ t ∈ fs.paths, k = edgeKey nid t
  | [], _, _, h => Or.inl h
  | imp :: l, st, k, h => by
    rw [List.foldl_cons] at h
    rcases edgeSet_shape_foldImports h with h' | hsh
    · rcases processImport_cases fs nid st imp with hc | ⟨t, _, hr, _, _, hc⟩
      · rw [hc] at h'
        exact Or.inl h'
      · rw [hc] at h'
        rcases List.mem_cons.mp h' with rfl | h''
        · exact Or.inr ⟨t, (resolve_target_facts hr).1, rfl⟩
        · exact Or.inl h''
    · exact Or.inr hsh

lemma processFile_decomp {fs : FS} {st : GState} {f : PyFile}
    (hK : ∀ t ∈ fs.paths, edgeKey f.path t ∉ st.edgeSet) :
    (processFile fs st f).edges = st.edges ++ fileEdges fs f ∧
      ∀ k, k ∈ (processFile fs st f).edgeSet →
        k ∈ st.edgeSet ∨ ∃ t ∈ fs.paths, k = edgeKey f.path t := by
  cases hx : isExcluded f.path
  · have hst1 :
        ((if st.nodeMap.contains f.path then st
          else { st with
                   nodeMap := f.path :: st.nodeMap,
                   nodes := st.nodes ++ [mkNode f.path] }) : GState).edges = st.edges ∧
        ((if st.nodeMap.contains f.path then st
          else { st with
                   nodeMap := f.path :: st.nodeMap,
                   nodes := st.nodes ++ [mkNode f.path] }) : GState).edgeSet = st.edgeSet := by
      cases hc : st.nodeMap.contains f.path <;> simp
    have hpar := foldImports_parallel hK
      (extract_imports f.parsed)
      (if st.nodeMap.contains f.path then st
        else { st with
                 nodeMap := f.path :: st.nodeMap,
                 nodes := st.nodes ++ [mkNode f.path] })
      GState.initial st.edges
      (by rw [hst1.1]; simp [GState.initial])
      (by intro k; rw [hst1.2]; simp [GState.initial])
    constructor
    · have : (processFile fs st f).edges =
          ((extract_imports f.parsed).foldl (processImport fs f.path)
            (if st.nodeMap.contains f.path then st
              else { st with
                       nodeMap := f.path :: st.nodeMap,
                       nodes := st.nodes ++ [mkNode f.path] })).edges := by
        unfold processFile
        rw [hx]
        simp only [Bool.false_eq_true, if_false]
      rw [this, hpar.1]
      unfold fileEdges
      rw [hx]
      simp
    · intro k hk
      have hk' : k ∈ ((extract_imports f.parsed).foldl (processImport fs f.path)
          (if st.nodeMap.contains f.path then st
            else { st with
                     nodeMap := f.path :: st.nodeMap,
                     nodes := st.nodes ++ [mkNode f.path] })).edgeSet := by
        have : (processFile fs st f).edgeSet =
            ((extract_imports f.parsed).foldl (processImport fs f.path)
              (if st.nodeMap.contains f.path then st
                else { st with
                         nodeMap := f.path :: st.nodeMap,
                         nodes := st.nodes ++ [mkNode f.path] })).edgeSet := by
          unfold processFile
          rw [hx]
          simp only [Bool.false_eq_true, if_false]
        rwa [this] at hk
      rcases (hpar.2 k).mp hk' with h' | h'
      · rcases edgeSet_shape_foldImports h' with h'' | hsh
        · simp [GState.initial] at h''
        · exact Or.inr hsh
      · exact Or.inl h'
  · rw [processFile_excluded hx]
    constructor
    · unfold fileEdges
      rw [hx]
      simp
    · intro k hk
      exact Or.inl hk

lemma foldFiles_decomp {fs : FS} (hsep : keysSeparated fs) :
    ∀ {files : List PyFile} {st : GState},
      (∀ f ∈ files, f.path ∈ fs.paths) →
      (files.map PyFile.path).Nodup →
      (∀ k ∈ st.edgeSet, ∃ q ∈ fs.paths, ∃ t ∈ fs.paths,
          k = edgeKey q t ∧ q ∉ files.map PyFile.path) →
      (files.foldl (processFile fs) st).edges = st.edges ++ files.flatMap (fileEdges fs)
  | [], st, _, _, _ => by simp
  | f :: files, st, hpaths, hnd, hstK => by
    obtain ⟨hfnotin, hnd'⟩ := List.nodup_cons.mp hnd
    have hfpath : f.path ∈ fs.paths := hpaths f (List.mem_cons_self f files)
    have hK : ∀ t ∈ fs.paths, edgeKey f.path t ∉ st.edgeSet := by
      intro t ht hk
      obtain ⟨q, hq, t', ht', hkeq, hqnot⟩ := hstK _ hk
      obtain ⟨hq_eq, -⟩ := hsep f.path hfpath q hq t ht t' ht' hkeq
      exact hqnot (hq_eq ▸ List.mem_cons_self f.path (files.map PyFile.path))
    obtain ⟨hedges, hsets⟩ := processFile_decomp hK
    rw [List.foldl_cons]
    have hstK' : ∀ k ∈ (processFile fs st f).edgeSet,
        ∃ q ∈ fs.paths, ∃ t ∈ fs.paths,
          k = edgeKey q t ∧ q ∉ files.map PyFile.path := by
      intro k hk
      rcases hsets k hk with hk' | ⟨t, ht, rfl⟩
      · obtain ⟨q, hq, t', ht', hkeq, hqnot⟩ := hstK _ hk'
        exact ⟨q, hq, t', ht', hkeq, fun hmem => hqnot (List.mem_cons_of_mem _ hmem)⟩
      · exact ⟨f.path, hfpath, t, ht, rfl, hfnotin⟩
    rw [foldFiles_decomp hsep (fun g hg => hpaths g (List.mem_cons_of_mem f hg)) hnd'
      hstK', hedges]
    simp [List.append_assoc]

lemma build_edges_decomp {fs : FS} (hroot : fs.rootExists = true)
    (hsep : keysSeparated fs) (hnd : fs.paths.Nodup) :
    (build_python_graph fs).edges = (discoverPyFiles fs).flatMap (fileEdges fs) := by
  have hpaths : ∀ f ∈ discoverPyFiles fs, f.path ∈ fs.paths := by
    intro f hf
    rw [discoverPyFiles, List.mem_insertionSort, List.mem_filter] at hf
    exact List.mem_map_of_mem PyFile.path hf.1
  unfold build_python_graph
  rw [hroot]
  simp only [Bool.true_eq_false, if_false]
  rw [foldFiles_decomp hsep hpaths (discoverPyFiles_map_path_nodup hnd)
    (by intro k hk; simp [GState.initial] at hk)]
  simp [GState.initial]

lemma fileEdges_none (fs : FS) (p : String) : fileEdges fs ⟨p, none⟩ = [] := by
  unfold fileEdges
  split <;> rfl

lemma fileEdges_fromId {fs : FS} {f : PyFile} {e : Edge} (h : e ∈ fileEdges fs f) :
    e.fromId = f.path := by
  unfold fileEdges at h
  by_cases hx : isExcluded f.path = true
  · rw [if_pos hx] at h
    simp at h
  · rw [if_neg hx] at h
    rcases mem_edges_foldImports h with h' | ⟨imp, _, _, hfrom, _⟩
    · simp [GState.initial] at h'
    · exact hfrom

lemma fileEdges_congr {fs₁ fs₂ : FS} (h : fs₁.paths = fs₂.paths) (f : PyFile) :
    fileEdges fs₁ f = fileEdges fs₂ f := by
  unfold fileEdges
  rw [processImport_congr (show List.Perm fs₁.paths fs₂.paths from h ▸ List.Perm.refl fs₁.paths)]

lemma build_nodes_eq {fs : FS} (hroot : fs.rootExists = true) (hnd : fs.paths.Nodup) :
    (build_python_graph fs).nodes =
      ((discoverPyFiles fs).filter fun f => !isExcluded f.path).map
        (fun f => mkNode f.path) := by
  unfold build_python_graph
  rw [hroot]
  simp only [Bool.true_eq_false, if_false]
  rw [foldFiles_nodes_eq (discoverPyFiles_map_path_nodup hnd)
    (by intro f _ h; simp [GState.initial] at h)]
  simp [GState.initial]

/-- C6: replacing one file's parse result by a failure changes nothing but
that file's own outgoing edges.  The broken file keeps its node, emits no
edges, and every other file's nodes and edges are untouched. -/
theorem broken_file_isolated (re : Bool) (pre post : List PyFile) (p : String)
    (stmts : List Stmt)
    (hnd : (FS.mk re (pre ++ ⟨p, some stmts⟩ :: post)).paths.Nodup)
    (hsep : keysSeparated (FS.mk re (pre ++ ⟨p, some stmts⟩ :: post))) :
    (build_python_graph ⟨re, pre ++ ⟨p, none⟩ :: post⟩).nodes =
        (build_python_graph ⟨re, pre ++ ⟨p, some stmts⟩ :: post⟩).nodes ∧
      (build_python_graph ⟨re, pre ++ ⟨p, none⟩ :: post⟩).edges =
        (build_python_graph ⟨re, pre ++ ⟨p, some stmts⟩ :: post⟩).edges.filter
          (fun e => e.fromId != p) ∧
      (∀ e ∈ (build_python_graph ⟨re, pre ++ ⟨p, none⟩ :: post⟩).edges,
        e.fromId ≠ p) ∧
      (re = true → strEndsWith p ".py" = true → isExcluded p = false →
        ∃ n ∈ (build_python_graph ⟨re, pre ++ ⟨p, none⟩ :: post⟩).nodes, n.id = p) := by
  have hpaths_eq : (FS.mk re (pre ++ ⟨p, none⟩ :: post)).paths
      = (FS.mk re (pre ++ ⟨p, some stmts⟩ :: post)).paths := by
    simp [FS.paths]
  have hnd₂ : (FS.mk re (pre ++ ⟨p, none⟩ :: post)).paths.Nodup := by
    rw [hpaths_eq]; exact hnd
  have hsep₂ : keysSeparated (FS.mk re (pre ++ ⟨p, none⟩ :: post)) := by
    unfold keysSeparated at hsep ⊢
    rw [hpaths_eq]
    exact hsep
  have hpmem : p ∈ (FS.mk re (pre ++ ⟨p, none⟩ :: post)).paths :=
    List.mem_map_of_mem PyFile.path
      (List.mem_append.mpr (Or.inr (List.mem_cons_self _ _)))
  cases hre : re <;> subst hre
  · constructor
    · simp [build_python_graph]
    constructor
    · simp [build_python_graph]
    constructor
    · simp [build_python_graph]
    · intro h; cases h
  · -- the path-preserving content eraser
    have hgpath : ∀ x : PyFile,
        ((if x.path = p then (⟨p, none⟩ : PyFile) else x)).path = x.path := by
      intro x
      by_cases hxp : x.path = p
      · simp [hxp]
      · simp [hxp]
    -- p occurs exactly once among the paths
    have hndflat : (pre.map PyFile.path ++ p :: post.map PyFile.path).Nodup := by
      have := hnd
      simpa [FS.paths] using this
    obtain ⟨hnp, hnc, hdisj⟩ := List.nodup_append.mp hndflat
    have hppre : ∀ x ∈ pre, x.path ≠ p := by
      intro x hx hxp
      exact hdisj (List.mem_map_of_mem PyFile.path hx)
        (hxp ▸ List.mem_cons_self p (post.map PyFile.path))
    have hppost : ∀ x ∈ post, x.path ≠ p := by
      intro x hx hxp
      obtain ⟨hpn, -⟩ := List.nodup_cons.mp hnc
      exact hpn (hxp ▸ List.mem_map_of_mem PyFile.path hx)
    have hfiles : pre ++ (⟨p, none⟩ : PyFile) :: post
        = (pre ++ (⟨p, some stmts⟩ : PyFile) :: post).map
            (fun x => if x.path = p then (⟨p, none⟩ : PyFile) else x) := by
      rw [List.map_append, List.map_cons]
      have h1 : pre.map (fun x => if x.path = p then (⟨p, none⟩ : PyFile) else x)
          = pre := by
        rw [List.map_congr_left fun x hx => if_neg (hppre x hx)]
        exact List.map_id pre
      have h2 : post.map (fun x => if x.path = p then (⟨p, none⟩ : PyFile) else x)
          = post := by
        rw [List.map_congr_left fun x hx => if_neg (hppost x hx)]
        exact List.map_id post
      rw [h1, h2]
      simp
    have hdisc : discoverPyFiles ⟨true, pre ++ ⟨p, none⟩ :: post⟩
        = (discoverPyFiles ⟨true, pre ++ ⟨p, some stmts⟩ :: post⟩).map
            (fun x => if x.path = p then (⟨p, none⟩ : PyFile) else x) := by
      show ((pre ++ (⟨p, none⟩ : PyFile) :: post).filter
          (fun f => strEndsWith f.path ".py")).insertionSort pathLE = _
      rw [hfiles, List.filter_map,
        List.filter_congr
          (fun x _ => by simp only [Function.comp]; rw [hgpath x])]
      exact (List.map_insertionSort pathLE pathLE
        (fun x => if x.path = p then (⟨p, none⟩ : PyFile) else x) _
        (fun a _ b _ => by simp only [pathLE]; rw [hgpath a, hgpath b])).symm
    have hroot₁ : (FS.mk true (pre ++ (⟨p, some stmts⟩ : PyFile) :: post)).rootExists
        = true := rfl
    have hroot₂ : (FS.mk true (pre ++ (⟨p, none⟩ : PyFile) :: post)).rootExists
        = true := rfl
    -- node lists agree
    have hnodes : (build_python_graph ⟨true, pre ++ ⟨p, none⟩ :: post⟩).nodes =
        (build_python_graph ⟨true, pre ++ ⟨p, some stmts⟩ :: post⟩).nodes := by
      rw [build_nodes_eq hroot₂ hnd₂, build_nodes_eq hroot₁ hnd, hdisc,
        List.filter_map,
        List.filter_congr
          (fun x _ => by simp only [Function.comp]; rw [hgpath x]),
        List.map_map]
      exact List.map_congr_left fun x _ => by
        simp only [Function.comp_apply]
        rw [hgpath x]
    -- edge lists: the broken file's edges are exactly the ones dropped
    have hedges : (build_python_graph ⟨true, pre ++ ⟨p, none⟩ :: post⟩).edges =
        (build_python_graph ⟨true, pre ++ ⟨p, some stmts⟩ :: post⟩).edges.filter
          (fun e => e.fromId != p) := by
      rw [build_edges_decomp hroot₂ hsep₂ hnd₂, build_edges_decomp hroot₁ hsep hnd,
        hdisc, List.flatMap_map, List.filter_flatMap]
      apply flatMap_congr_mem
      intro x _
      by_cases hxp : x.path = p
      · rw [if_pos hxp, fileEdges_none]
        symm
        rw [List.filter_eq_nil_iff]
        intro e he
        simp [fileEdges_fromId he, hxp]
      · rw [if_neg hxp, fileEdges_congr hpaths_eq]
        symm
        rw [List.filter_eq_self]
        intro e he
        simp [fileEdges_fromId he, hxp]
    refine ⟨hnodes, hedges, ?_, ?_⟩
    · intro e he
      rw [hedges] at he
      obtain ⟨-, hq⟩ := List.mem_filter.mp he
      simpa using hq
    · intro _ hpy hexc
      exact build_node_exists hroot₂ hpmem hpy hexc

theorem broken_file_isolated_witness :
    (FS.mk true (fsCfiles (some brokenStmts))).paths.Nodup ∧
      keysSeparated (FS.mk true (fsCfiles (some brokenStmts))) ∧
      (build_python_graph ⟨true, fsCfiles none⟩).nodes =
        (build_python_graph ⟨true, fsCfiles (some brokenStmts)⟩).nodes ∧
      (∀ e ∈ (build_python_graph ⟨true, fsCfiles none⟩).edges,
        e.fromId ≠ "broken.py") ∧
      ∃ n ∈ (build_python_graph ⟨true, fsCfiles none⟩).nodes, n.id = "broken.py" :=
  have h := broken_file_isolated true []
    [⟨"pkg/mod.py", some []⟩, ⟨"main.py", some [.imp ["pkg.mod"]]⟩]
    "broken.py" brokenStmts (by decide) (by decide)
  ⟨by decide, by decide, h.1, h.2.2.1, h.2.2.2 rfl (by decide) (by decide)⟩

end IntelliMap
